import Mathlib

/-!
Formal model of the TreeDex core algorithms, shallowly embedded from the
TypeScript source (`src/tree-builder.ts`, `src/tree-utils.ts`,
`src/pdf-parser.ts`, and the `TreeDex.save` / `TreeDex.load` methods),
together with theorems checking the specification's claims about them.

Modelling conventions:
* JavaScript objects become Lean structures / inductives; optional fields
  (`start_index?`, `end_index?`, `node_id?`, `text?`) become `Option`.
* In-place mutation passes become pure tree-rebuilding functions.
* JS object references held by `nodesByStructure` in `listToTree` are
  modelled as stable locations (paths of child positions) into the forest:
  the forest is append-only, so a node's location never changes, exactly
  mirroring reference semantics.
* Machine integers: page numbers and ranges are `Int` (JS numbers used as
  integers by the code); token counts are `Nat` (the claims assume
  non-negative sizes).
-/

set_option maxHeartbeats 1000000
set_option maxRecDepth 8000

namespace TreeDex

/-- A document page (`src/types.ts`, `interface Page`). -/
structure Page where
  page_num : Int
  text : String
  token_count : Nat
deriving Repr, DecidableEq

/-- A tree node (`src/types.ts`, `interface TreeNode`): required fields
`structure`, `title`, `physical_index`, `nodes`, optional `start_index`,
`end_index`, `node_id`, `text`.  An inductive (rather than `structure`)
because the type is recursive through `nodes`. -/
inductive TreeNode where
  | mk (structure_ : String) (title : String) (physical_index : Int)
       (start_index : Option Int) (end_index : Option Int)
       (node_id : Option String) (text : Option String)
       (nodes : List TreeNode)

def TreeNode.structure_ : TreeNode → String
  | .mk s _ _ _ _ _ _ _ => s

def TreeNode.title : TreeNode → String
  | .mk _ t _ _ _ _ _ _ => t

def TreeNode.physical_index : TreeNode → Int
  | .mk _ _ pi _ _ _ _ _ => pi

def TreeNode.start_index : TreeNode → Option Int
  | .mk _ _ _ si _ _ _ _ => si

def TreeNode.end_index : TreeNode → Option Int
  | .mk _ _ _ _ ei _ _ _ => ei

def TreeNode.node_id : TreeNode → Option String
  | .mk _ _ _ _ _ id _ _ => id

def TreeNode.text : TreeNode → Option String
  | .mk _ _ _ _ _ _ tx _ => tx

def TreeNode.nodes : TreeNode → List TreeNode
  | .mk _ _ _ _ _ _ _ ks => ks

/-- A flat section item produced by the generator (`listToTree`'s input
element shape: `{ structure, title, physical_index }`). -/
structure SectionItem where
  structure_ : String
  title : String
  physical_index : Int
deriving Repr, DecidableEq

/-! ### `listToTree` (src/tree-builder.ts)

The JS implementation keeps a `nodesByStructure` record mapping a path
string to a node *reference* and mutates `parent.nodes.push(node)`.
Since roots and children lists are append-only, every node has a stable
location: the list of child positions from the root list.  We model the
record as an association list from path strings to locations (cons on
write, first-match lookup = most-recent-write wins, exactly the record's
overwrite semantics). -/

/-- A location inside a forest: a non-empty path of child positions. -/
abbrev Loc := List Nat

/-- Fetch the node at a location, if any. -/
def getNodeAt : List TreeNode → Loc → Option TreeNode
  | _, [] => none
  | ns, i :: rest =>
    match ns[i]? with
    | none => none
    | some n =>
      match rest with
      | [] => some n
      | _ :: _ => getNodeAt n.nodes rest

/-- Replace the `i`-th element of a sibling list. -/
def modifyKth (f : TreeNode → TreeNode) : List TreeNode → Nat → List TreeNode
  | [], _ => []
  | n :: tl, 0 => f n :: tl
  | n :: tl, i+1 => n :: modifyKth f tl i

/-- Append `c` as the last child of the node at `loc` (models
`parent.nodes.push(node)`).  Out-of-range locations leave the forest
unchanged (unreachable for the locations the builder stores). -/
def attachAt : List TreeNode → Loc → TreeNode → List TreeNode
  | ns, [], _ => ns
  | ns, i :: rest, c =>
    modifyKth
      (fun n =>
        match n, rest with
        | .mk s t pi si ei id tx ks, [] => .mk s t pi si ei id tx (ks ++ [c])
        | .mk s t pi si ei id tx ks, _ :: _ => .mk s t pi si ei id tx (attachAt ks rest c))
      ns i

/-- `{ ...item, nodes: [] }`: the freshly constructed node. -/
def newNode (it : SectionItem) : TreeNode :=
  .mk it.structure_ it.title it.physical_index none none none none []

/-- JS `"a.b.c".split(".")` (the source's path split), working on
characters; `"".split(".")` is `[""]`, separators at the ends produce
empty segments. -/
def splitDotGo : List Char → List Char → List String
  | [], acc => [String.mk acc.reverse]
  | c :: rest, acc =>
    if c = '.' then String.mk acc.reverse :: splitDotGo rest []
    else splitDotGo rest (c :: acc)

def splitDot (s : String) : List String := splitDotGo s.toList []

/-- The loop body of `listToTree`.  `locs` is the `nodesByStructure`
record (most recent binding first).  The source registers the new node in
the record before the parent lookup; since a path's parent path is always
a strictly shorter string, the lookup can never hit the node's own fresh
binding, so registering after placement (required here because the
node's location depends on its placement) is equivalent. -/
def listToTreeGo : List SectionItem → List TreeNode → List (String × Loc) → List TreeNode
  | [], forest, _ => forest
  | it :: rest, forest, locs =>
    let node := newNode it
    let parts := splitDot it.structure_
    if parts.length = 1 then
      listToTreeGo rest (forest ++ [node]) ((it.structure_, [forest.length]) :: locs)
    else
      let parentStructure := String.intercalate "." parts.dropLast
      match locs.lookup parentStructure with
      | some ploc =>
        let cnt := match getNodeAt forest ploc with
          | some p => p.nodes.length
          | none => 0
        listToTreeGo rest (attachAt forest ploc node) ((it.structure_, ploc ++ [cnt]) :: locs)
      | none =>
        listToTreeGo rest (forest ++ [node]) ((it.structure_, [forest.length]) :: locs)

/-- `listToTree` (src/tree-builder.ts): convert a flat list with
`structure` fields into a forest; parent found via the record, orphans
and single-segment paths are promoted to roots. -/
def listToTree (flatList : List SectionItem) : List TreeNode :=
  listToTreeGo flatList [] []

/-! ### `assignRanges` / `assignPageRanges` (src/tree-builder.ts) -/

/-- The recursive `assignRanges(nodes, boundaryEnd)` helper:
`start_index := physical_index`; `end_index := next sibling's
physical_index - 1`, or `boundaryEnd` for the last sibling; clamped to
`start_index` when smaller; children are processed with the node's own
`end_index` as their boundary. -/
def assignRanges : List TreeNode → Int → List TreeNode
  | [], _ => []
  | .mk s t pi _ _ id tx ks :: rest, boundaryEnd =>
    let e : Int := match rest with
      | [] => boundaryEnd
      | m :: _ => m.physical_index - 1
    let e' : Int := if e < pi then pi else e
    TreeNode.mk s t pi (some pi) (some e') id tx (assignRanges ks e') ::
      assignRanges rest boundaryEnd

/-- `assignPageRanges(tree, totalPages)`: run `assignRanges` with the
document's last page index as the root boundary. -/
def assignPageRanges (tree : List TreeNode) (totalPages : Nat) : List TreeNode :=
  assignRanges tree ((totalPages : Int) - 1)

/-! ### `assignNodeIds` (src/tree-builder.ts) -/

/-- `String.prototype.padStart(len, c)`: prepend copies of `c` until the
length reaches `len`. -/
def padStart (s : String) (len : Nat) (c : Char) : String :=
  String.mk (List.replicate (len - s.length) c) ++ s

/-- `String(counter).padStart(4, "0")`. -/
def renderId (counter : Nat) : String := padStart (Nat.repr counter) 4 '0'

/-- The DFS walk of `assignNodeIds`, threading the counter: the node gets
the next id (`counter + 1`), then its children are numbered, then its
right siblings continue from the children's final counter (pre-order). -/
def assignIdsGo : List TreeNode → Nat → List TreeNode × Nat
  | [], counter => ([], counter)
  | .mk s t pi si ei _ tx ks :: tl, counter =>
    (TreeNode.mk s t pi si ei (some (renderId (counter + 1))) tx
        (assignIdsGo ks (counter + 1)).1 ::
        (assignIdsGo tl (assignIdsGo ks (counter + 1)).2).1,
     (assignIdsGo tl (assignIdsGo ks (counter + 1)).2).2)

/-- `assignNodeIds(tree)`: sequential ids '0001', '0002', … in DFS order. -/
def assignNodeIds (tree : List TreeNode) : List TreeNode :=
  (assignIdsGo tree 0).1

/-! ### `embedTextInTree` (src/tree-builder.ts) -/

/-- `pages.filter(p => p.page_num >= start && p.page_num <= end)
     .map(p => p.text).join("\n")`. -/
def pageTextInRange (pages : List Page) (start_ end_ : Int) : String :=
  String.intercalate "\n"
    ((pages.filter (fun p => decide (start_ ≤ p.page_num) && decide (p.page_num ≤ end_))).map
      Page.text)

/-- The recursive walk of `embedTextInTree`: set `text` on every node from
its `start_index ?? 0` / `end_index ?? 0` range. -/
def embedGo (pages : List Page) : List TreeNode → List TreeNode
  | [] => []
  | .mk s t pi si ei id _ ks :: tl =>
    TreeNode.mk s t pi si ei id
      (some (pageTextInRange pages (si.getD 0) (ei.getD 0)))
      (embedGo pages ks) :: embedGo pages tl

/-- `embedTextInTree(tree, pages)`. -/
def embedTextInTree (tree : List TreeNode) (pages : List Page) : List TreeNode :=
  embedGo pages tree

/-! ### tree-utils (src/tree-utils.ts) -/

/-- `countNodes(tree)`: recursively count all nodes. -/
def countNodes : List TreeNode → Nat
  | [] => 0
  | .mk _ _ _ _ _ _ _ ks :: tl => 1 + countNodes ks + countNodes tl

/-- `stripTextFromTree(tree)`: deep copy (value semantics here) with every
`text` field deleted. -/
def stripTextFromTree : List TreeNode → List TreeNode
  | [] => []
  | .mk s t pi si ei id _ ks :: tl =>
    TreeNode.mk s t pi si ei id none (stripTextFromTree ks) :: stripTextFromTree tl

/-- JS record update `mapping[k] = v`: overwrite in place if the key
exists, else append.  The entry count is the number of distinct keys. -/
def recordSet (m : List (String × TreeNode)) (k : String) (v : TreeNode) :
    List (String × TreeNode) :=
  if m.any (fun kv => kv.1 == k) then
    m.map (fun kv => if kv.1 == k then (k, v) else kv)
  else m ++ [(k, v)]

/-- The walk of `createNodeMapping`: insert `node_id → node` when the id
is defined, then recurse into children, then siblings. -/
def mappingGo : List (String × TreeNode) → List TreeNode → List (String × TreeNode)
  | m, [] => m
  | m, (.mk s t pi si ei id tx ks) :: tl =>
    let m1 := match id with
      | some i => recordSet m i (.mk s t pi si ei id tx ks)
      | none => m
    mappingGo (mappingGo m1 ks) tl

/-- `createNodeMapping(tree)`. -/
def createNodeMapping (tree : List TreeNode) : List (String × TreeNode) :=
  mappingGo [] tree

/-- A node of `treeToFlatList`'s output: every field but `nodes`. -/
structure FlatNode where
  structure_ : String
  title : String
  physical_index : Int
  start_index : Option Int
  end_index : Option Int
  node_id : Option String
  text : Option String
deriving Repr, DecidableEq

/-- `treeToFlatList(tree)`: all nodes in DFS pre-order, children stripped. -/
def treeToFlatList : List TreeNode → List FlatNode
  | [] => []
  | .mk s t pi si ei id tx ks :: tl =>
    ⟨s, t, pi, si, ei, id, tx⟩ :: (treeToFlatList ks ++ treeToFlatList tl)

/-! ### `TreeDex.save` / `TreeDex.load` (src/index.ts)

`save` writes `{ version, framework, tree: stripTextFromTree(this.tree),
pages: this.pages }`; `load` reads it back and re-runs
`assignPageRanges(tree, pages.length)` and `embedTextInTree(tree, pages)`.
File I/O and JSON serialization are identities on the data model. -/

/-- The `tree` field of the persisted unit written by `save`. -/
def saveTree (tree : List TreeNode) : List TreeNode := stripTextFromTree tree

/-- The in-memory tree produced by `load` from a persisted tree and pages. -/
def loadTree (tree : List TreeNode) (pages : List Page) : List TreeNode :=
  embedTextInTree (assignPageRanges tree pages.length) pages

/-! ### `groupPages` (src/pdf-parser.ts)

Pages are abstracted to their `token_count`s (the only field the grouping
logic reads); a window is the half-open index span `(groupStart,
groupEnd + 1)` standing for `pagesToTaggedText(pages, groupStart,
groupEnd)` = `pages.slice(groupStart, groupEnd + 1)` rendered. -/

/-- The inner greedy loop: keep absorbing pages while the running total
stays within budget; a page that would overflow stops the window *unless*
it would be the window's first page (`groupEnd > groupStart`), in which
case it is absorbed anyway.  Returns the final `groupEnd` (pointing one
past the last absorbed page on normal exit, or at the last absorbed page
after the `groupEnd -= 1` break). -/
def growEnd (toks : List Nat) (maxTokens groupStart running groupEnd : Nat) : Nat :=
  if h : groupEnd < toks.length then
    if running + toks.getD groupEnd 0 > maxTokens ∧ groupStart < groupEnd then groupEnd - 1
    else growEnd toks maxTokens groupStart (running + toks.getD groupEnd 0) (groupEnd + 1)
  else groupEnd
termination_by toks.length - groupEnd
decreasing_by omega

/-- The window end for the window starting at `groupStart`, including the
post-loop clamps `if (groupEnd >= pages.length) groupEnd = pages.length -
1` and `groupEnd = Math.min(groupEnd, pages.length - 1)`. -/
def windowEnd (toks : List Nat) (maxTokens groupStart : Nat) : Nat :=
  min
    (if growEnd toks maxTokens groupStart 0 groupStart ≥ toks.length then toks.length - 1
     else growEnd toks maxTokens groupStart 0 groupStart)
    (toks.length - 1)

/-- The outer `while (groupStart < pages.length)` loop: emit the window,
stop after a window reaching the last page, else restart at
`max(groupEnd + 1 - overlap, groupStart + 1)` (in JS a negative
`groupEnd + 1 - overlap` loses to `groupStart + 1 ≥ 1` in `Math.max`,
matching truncated `Nat` subtraction). -/
def groupLoop (toks : List Nat) (maxTokens overlap groupStart : Nat) : List (Nat × Nat) :=
  if h : groupStart < toks.length then
    (groupStart, windowEnd toks maxTokens groupStart + 1) ::
      (if windowEnd toks maxTokens groupStart ≥ toks.length - 1 then []
       else groupLoop toks maxTokens overlap
         (max (windowEnd toks maxTokens groupStart + 1 - overlap) (groupStart + 1)))
  else []
termination_by toks.length - groupStart
decreasing_by omega

/-- `groupPages(pages, maxTokens, overlap)`: one window
`pages.slice(0, pages.length)` when the total fits the budget, else the
greedy overlapping loop. -/
def groupPages (toks : List Nat) (maxTokens : Nat) (overlap : Nat) : List (Nat × Nat) :=
  if toks.sum ≤ maxTokens then [(0, toks.length)]
  else groupLoop toks maxTokens overlap 0

/-- Number of page indices two half-open spans share. -/
def sharedCount (w1 w2 : Nat × Nat) : Nat := min w1.2 w2.2 - max w1.1 w2.1

/-! ### A model of `JSON.parse` for `extractJson` (src/tree-utils.ts)

JSON values; number literals are kept as their source tokens (the
claims checked here never depend on numeric-value identification such as
`1 == 1.0`), and object members are kept in source order including
duplicates (JS keeps the last binding; no claim involves duplicate
keys). -/

inductive JsonValue where
  | null
  | bool (b : Bool)
  | num (lit : String)
  | str (s : String)
  | arr (items : List JsonValue)
  | obj (members : List (String × JsonValue))

/-- JSON whitespace: space, tab, newline, carriage return. -/
def isJsonWs (c : Char) : Bool := c == ' ' || c == '\t' || c == '\n' || c == '\r'

def skipWs (cs : List Char) : List Char := cs.dropWhile isJsonWs

def hexVal (c : Char) : Option Nat :=
  if c.isDigit then some (c.toNat - '0'.toNat)
  else if 'a' ≤ c ∧ c ≤ 'f' then some (c.toNat - 'a'.toNat + 10)
  else if 'A' ≤ c ∧ c ≤ 'F' then some (c.toNat - 'A'.toNat + 10)
  else none

/-- Body of a JSON string after the opening quote: decoded characters and
the remainder after the closing quote.  `\uXXXX` decodes via
`Char.ofNat` (surrogate halves are not paired up — no claim involves
non-ASCII strings); unescaped control characters are rejected. -/
def parseStringBody : List Char → Option (List Char × List Char)
  | [] => none
  | '"' :: rest => some ([], rest)
  | '\\' :: '"' :: rest => (parseStringBody rest).map (fun p => ('"' :: p.1, p.2))
  | '\\' :: '\\' :: rest => (parseStringBody rest).map (fun p => ('\\' :: p.1, p.2))
  | '\\' :: '/' :: rest => (parseStringBody rest).map (fun p => ('/' :: p.1, p.2))
  | '\\' :: 'b' :: rest => (parseStringBody rest).map (fun p => ('\x08' :: p.1, p.2))
  | '\\' :: 'f' :: rest => (parseStringBody rest).map (fun p => ('\x0c' :: p.1, p.2))
  | '\\' :: 'n' :: rest => (parseStringBody rest).map (fun p => ('\n' :: p.1, p.2))
  | '\\' :: 'r' :: rest => (parseStringBody rest).map (fun p => ('\x0d' :: p.1, p.2))
  | '\\' :: 't' :: rest => (parseStringBody rest).map (fun p => ('\t' :: p.1, p.2))
  | '\\' :: 'u' :: a :: b :: c :: d :: rest =>
    (match hexVal a, hexVal b, hexVal c, hexVal d with
     | some ha, some hb, some hc, some hd =>
       (parseStringBody rest).map
         (fun p => (Char.ofNat (((ha * 16 + hb) * 16 + hc) * 16 + hd) :: p.1, p.2))
     | _, _, _, _ => none)
  | '\\' :: _ => none
  | c :: rest =>
    if c.toNat < 0x20 then none
    else (parseStringBody rest).map (fun p => (c :: p.1, p.2))

def takeDigits (cs : List Char) : List Char × List Char :=
  (cs.takeWhile Char.isDigit, cs.dropWhile Char.isDigit)

/-- Optional fraction and exponent of a JSON number.  A malformed suffix
(e.g. `1.` or `1e`) is simply not consumed; the stray character then
fails in the surrounding context exactly as `JSON.parse` fails, since
`.`/`e` can never legally follow a completed value. -/
def afterIntPart (acc : List Char) (cs : List Char) : List Char × List Char :=
  let fr : List Char × List Char := match cs with
    | '.' :: r =>
      let (ds, r2) := takeDigits r
      if ds.isEmpty then (acc, cs) else (acc ++ '.' :: ds, r2)
    | _ => (acc, cs)
  match fr.2 with
  | e :: r =>
    if e == 'e' || e == 'E' then
      match r with
      | s :: r2 =>
        if s == '+' || s == '-' then
          let (ds, r3) := takeDigits r2
          if ds.isEmpty then fr else (fr.1 ++ e :: s :: ds, r3)
        else
          let (ds, r3) := takeDigits r
          if ds.isEmpty then fr else (fr.1 ++ e :: ds, r3)
      | [] => fr
    else fr
  | [] => fr

/-- JSON number token: `-? (0 | [1-9][0-9]*) frac? exp?`. -/
def parseNumberTok (cs : List Char) : Option (List Char × List Char) :=
  let sn : List Char × List Char := match cs with
    | '-' :: r => (['-'], r)
    | _ => ([], cs)
  match sn.2 with
  | '0' :: rest => some (afterIntPart (sn.1 ++ ['0']) rest)
  | c :: rest =>
    if c.isDigit then
      let (ds, r) := takeDigits rest
      some (afterIntPart (sn.1 ++ c :: ds) r)
    else none
  | [] => none

mutual

/-- Recursive-descent JSON value (fuel decreases on every call; the
initial fuel chosen below always suffices because every level consumes
input). -/
def parseValue : Nat → List Char → Option (JsonValue × List Char)
  | 0, _ => none
  | fuel+1, cs =>
    match skipWs cs with
    | [] => none
    | 'n' :: 'u' :: 'l' :: 'l' :: rest => some (.null, rest)
    | 't' :: 'r' :: 'u' :: 'e' :: rest => some (.bool true, rest)
    | 'f' :: 'a' :: 'l' :: 's' :: 'e' :: rest => some (.bool false, rest)
    | '"' :: rest =>
      match parseStringBody rest with
      | some (s, r) => some (.str (String.mk s), r)
      | none => none
    | '[' :: rest => parseElems fuel rest
    | '\x7b' :: rest => parseMembers fuel rest
    | other =>
      match parseNumberTok other with
      | some (tok, r) => some (.num (String.mk tok), r)
      | none => none

def parseElems : Nat → List Char → Option (JsonValue × List Char)
  | 0, _ => none
  | fuel+1, cs =>
    match skipWs cs with
    | ']' :: rest => some (.arr [], rest)
    | _ => parseElemsLoop fuel cs []

def parseElemsLoop : Nat → List Char → List JsonValue → Option (JsonValue × List Char)
  | 0, _, _ => none
  | fuel+1, cs, acc =>
    match parseValue fuel cs with
    | none => none
    | some (v, r) =>
      match skipWs r with
      | ',' :: r2 => parseElemsLoop fuel r2 (acc ++ [v])
      | ']' :: r2 => some (.arr (acc ++ [v]), r2)
      | _ => none

def parseMembers : Nat → List Char → Option (JsonValue × List Char)
  | 0, _ => none
  | fuel+1, cs =>
    match skipWs cs with
    | '\x7d' :: rest => some (.obj [], rest)
    | _ => parseMembersLoop fuel cs []

def parseMembersLoop : Nat → List Char → List (String × JsonValue) →
    Option (JsonValue × List Char)
  | 0, _, _ => none
  | fuel+1, cs, acc =>
    match skipWs cs with
    | '"' :: rest =>
      match parseStringBody rest with
      | none => none
      | some (k, r) =>
        match skipWs r with
        | ':' :: r2 =>
          match parseValue fuel r2 with
          | none => none
          | some (v, r3) =>
            match skipWs r3 with
            | ',' :: r4 => parseMembersLoop fuel r4 (acc ++ [(String.mk k, v)])
            | '\x7d' :: r4 => some (.obj (acc ++ [(String.mk k, v)]), r4)
            | _ => none
        | _ => none
    | _ => none

end

/-- `JSON.parse(s)`: a complete value with only whitespace around it;
`none` models the thrown `SyntaxError`. -/
def jsonParse (s : String) : Option JsonValue :=
  let cs := s.toList
  match parseValue (4 * cs.length + 8) cs with
  | some (v, rest) => if (skipWs rest).isEmpty then some v else none
  | none => none

/-! ### `extractJson` (src/tree-utils.ts) -/

/-- The ASCII part of the JS regex class `\s` (no claim involves the
Unicode space classes). -/
def isRegexWs (c : Char) : Bool :=
  c == ' ' || c == '\t' || c == '\n' || c == '\x0d' || c == '\x0b' || c == '\x0c'

/-- JS `String.prototype.trim` (ASCII whitespace). -/
def jsTrim (s : String) : String :=
  String.mk (((s.toList.dropWhile isRegexWs).reverse.dropWhile isRegexWs).reverse)

/-- Scan for the closing fence; lazy `(.*?)` takes the shortest group,
i.e. everything up to the first following ``` occurrence. -/
def takeUntilFence : List Char → Option (List Char)
  | '`' :: '`' :: '`' :: _ => some []
  | c :: rest => (takeUntilFence rest).map (c :: ·)
  | [] => none

/-- `text.match(/```(?:json)?\s*\n?(.*?)```/s)`, capture group 1.  The
engine tries each start position left to right (the `_ :: rest`
recursion); at a given position the greedy optional `json` tag and
whitespace run never require backtracking because none of the characters
they consume can begin the closing fence. -/
def fencedBlock : List Char → Option (List Char)
  | [] => none
  | c :: rest =>
    match c, rest with
    | '`', '`' :: '`' :: after =>
      let r1 := match after with
        | 'j' :: 's' :: 'o' :: 'n' :: r => r
        | _ => after
      let r2 := r1.dropWhile isRegexWs
      let r3 := match r2 with
        | '\n' :: r => r
        | _ => r2
      (match takeUntilFence r3 with
       | some body => some body
       | none => fencedBlock rest)
    | _, _ => fencedBlock rest

/-- The lookahead `\s*([}\]])` after a comma: skip whitespace, demand a
closing brace/bracket, and return it with the remainder. -/
def wsThenBracket : List Char → Option (Char × List Char)
  | [] => none
  | c :: rest =>
    if c == '\x7d' || c == ']' then some (c, rest)
    else if isRegexWs c then wsThenBracket rest
    else none

/-- The scan of `s.replace(/,\s*([}\]])/g, "$1")`: drop every comma (and
the following whitespace) whose next non-whitespace character is a
closing brace/bracket, keep the bracket, resume after it.  The fuel
argument (instantiated with the input length, which every step consumes
at least one character of) only makes the recursion structural. -/
def cleanGo : Nat → List Char → List Char
  | 0, cs => cs
  | _+1, [] => []
  | fuel+1, ',' :: rest =>
    (match wsThenBracket rest with
     | some (b, r2) => b :: cleanGo fuel r2
     | none => ',' :: cleanGo fuel rest)
  | fuel+1, c :: rest => c :: cleanGo fuel rest

/-- `s.replace(/,\s*([}\]])/g, "$1")`. -/
def cleanTrailingCommas (cs : List Char) : List Char := cleanGo cs.length cs

/-- The depth-counting scan from the first opening character: stop where
the same-kind nesting depth returns to zero and return that span
(characters inside string literals are *not* special-cased, mirroring
the source). -/
def balancedSpan (startChar endChar : Char) : List Char → Nat → Option (List Char)
  | [], _ => none
  | c :: rest, depth =>
    if c == startChar then (balancedSpan startChar endChar rest (depth+1)).map (c :: ·)
    else if c == endChar then
      if depth == 1 then some [c]
      else (balancedSpan startChar endChar rest (depth-1)).map (c :: ·)
    else (balancedSpan startChar endChar rest depth).map (c :: ·)

/-- One bracket-kind strategy of `extractJson`: first opening character
(`indexOf`), first depth-balanced candidate, direct parse then
trailing-comma repair; `none` when there is no opening char, no balanced
candidate, or both parses fail (the JS `break`). -/
def bracketAttempt (startChar endChar : Char) (cs : List Char) : Option JsonValue :=
  let fromStart := cs.dropWhile (fun c => !(c == startChar))
  match fromStart with
  | [] => none
  | _ :: _ =>
    match balancedSpan startChar endChar fromStart 0 with
    | none => none
    | some candidate =>
      match jsonParse (String.mk candidate) with
      | some v => some v
      | none => jsonParse (String.mk (cleanTrailingCommas candidate))

/-- The fenced-block strategy of `extractJson`: locate the block, trim
its interior, parse directly, then retry with trailing commas stripped. -/
def fencedAttempt (text : String) : Option JsonValue :=
  match fencedBlock text.toList with
  | none => none
  | some body =>
    let block := jsTrim (String.mk body)
    match jsonParse block with
    | some v => some v
    | none => jsonParse (String.mk (cleanTrailingCommas block.toList))

/-- `extractJson(text)`: direct parse; fenced block with trailing-comma
repair; `{...}` then `[...]` balanced candidates each with repair; else
the `Could not extract JSON` error carrying a 200-character preview. -/
def extractJson (text : String) : Except String JsonValue :=
  match jsonParse text with
  | some v => .ok v
  | none =>
    match fencedAttempt text with
    | some v => .ok v
    | none =>
      match bracketAttempt '\x7b' '\x7d' text.toList with
      | some v => .ok v
      | none =>
        match bracketAttempt '[' ']' text.toList with
        | some v => .ok v
        | none => .error ("Could not extract JSON from text: " ++ text.take 200 ++ "...")

/-! ### Predicates used by the theorems -/

/-- Induction over a forest: prove a property of sibling lists for `[]`
and for each cons given it for the children and for the tail. -/
theorem forest_ind {P : List TreeNode → Prop} (hnil : P [])
    (hcons : ∀ s t pi si ei id tx ks tl, P ks → P tl →
      P (TreeNode.mk s t pi si ei id tx ks :: tl)) : ∀ l, P l
  | [] => hnil
  | .mk s t pi si ei id tx ks :: tl =>
    hcons s t pi si ei id tx ks tl (forest_ind hnil hcons ks) (forest_ind hnil hcons tl)

/-- `p` holds on every node of the forest, recursively. -/
def allNodesb (p : TreeNode → Bool) : List TreeNode → Bool
  | [] => true
  | .mk s t pi si ei id tx ks :: tl =>
    p (.mk s t pi si ei id tx ks) && allNodesb p ks && allNodesb p tl

/-- The skeleton of a forest: `structure`/`title`/`physical_index`/
`node_id`/children, with the derived fields `start_index`, `end_index`
and `text` erased.  Two forests with equal skeletons carry exactly the
information the persisted format is claimed to keep. -/
def skeletonOnly : List TreeNode → List TreeNode
  | [] => []
  | .mk s t pi _ _ id _ ks :: tl =>
    TreeNode.mk s t pi none none id none (skeletonOnly ks) :: skeletonOnly tl

/-- The second forest is the first with `text` removed: every other
field equal node for node, `text = none` throughout the second. -/
def strippedForestb : List TreeNode → List TreeNode → Bool
  | [], [] => true
  | .mk s t pi si ei id _ ks :: tl, .mk s' t' pi' si' ei' id' tx' ks' :: tl' =>
    s == s' && t == t' && pi == pi' && si == si' && ei == ei' && id == id' &&
      tx'.isNone && strippedForestb ks ks' && strippedForestb tl tl'
  | _, _ => false

/-- Every node of the forest has `text = none`. -/
theorem allNodesb_strip (tree : List TreeNode) :
    allNodesb (fun n => n.text.isNone) (stripTextFromTree tree) = true := by
  induction tree using forest_ind with
  | hnil => simp [stripTextFromTree, allNodesb]
  | hcons s t pi si ei id tx ks tl ihks ihtl =>
    simp [stripTextFromTree, allNodesb, TreeNode.text] at ihks ihtl ⊢
    exact ⟨ihks, ihtl⟩

/-- `embedGo`/`assignRanges` only read the skeleton: the boundary term of
the first sibling is unchanged by skeletonisation. -/
theorem loadGo_skeletonOnly (pages : List Page) :
    ∀ (tree : List TreeNode) (E : Int),
      embedGo pages (assignRanges (skeletonOnly tree) E) =
        embedGo pages (assignRanges tree E) := by
  intro tree
  induction tree using forest_ind with
  | hnil => intro E; simp [skeletonOnly]
  | hcons s t pi si ei id tx ks tl ihks ihtl =>
    intro E
    cases tl with
    | nil => simp [skeletonOnly, assignRanges, embedGo, ihks]
    | cons m tl2 =>
      cases m with
      | mk ms mt mpi msi mei mid mtx mks =>
        have h := ihtl E
        simp only [skeletonOnly, assignRanges, embedGo, TreeNode.physical_index] at h ⊢
        simp [ihks, h]

/-! ### Claim C1 -/

/-- Claim C1 counterexample: the claim says the persisted unit written by
`save` contains only the skeleton fields and no `start`/`end`/`text`
field; but `save` strips only `text`, so a tree whose nodes carry
`start_index`/`end_index` is persisted with those range fields intact. -/
theorem save_persists_range_fields :
    saveTree [TreeNode.mk "1" "T" 0 (some 0) (some 4) (some "0001") (some "body") []] =
      [TreeNode.mk "1" "T" 0 (some 0) (some 4) (some "0001") none []] ∧
    allNodesb (fun n => n.start_index.isNone && n.end_index.isNone)
      (saveTree [TreeNode.mk "1" "T" 0 (some 0) (some 4) (some "0001") (some "body") []]) =
      false := by
  constructor
  · simp [saveTree, stripTextFromTree]
  · simp [saveTree, stripTextFromTree, allNodesb, TreeNode.start_index]

/-- Claim C1 amended: the persisted tree written by `save` has no `text`
field on any node (`start_index`/`end_index` are persisted as they
stand), and on load ranges and text are reconstructed by re-running the
range assigner against the stored page count and re-embedding text from
the stored pages: the loaded index is fully determined by the skeleton
(structure, title, anchor, id, children) and the pages, whatever derived
fields were persisted. -/
theorem save_strips_text_load_rederives :
    (∀ tree, allNodesb (fun n => n.text.isNone) (saveTree tree) = true) ∧
    (∀ t1 t2 pages, skeletonOnly t1 = skeletonOnly t2 →
      loadTree t1 pages = loadTree t2 pages) := by
  constructor
  · exact allNodesb_strip
  · intro t1 t2 pages h
    unfold loadTree assignPageRanges embedTextInTree
    rw [← loadGo_skeletonOnly pages t1, h, loadGo_skeletonOnly pages t2]

/-- Witness for the amended C1: two persisted trees differing only in
derived fields load identically. -/
theorem save_strips_text_load_rederives_witness :
    skeletonOnly [TreeNode.mk "1" "T" 0 (some 7) (some 9) (some "0001") (some "old") []] =
      skeletonOnly [TreeNode.mk "1" "T" 0 none none (some "0001") none []] ∧
    loadTree [TreeNode.mk "1" "T" 0 (some 7) (some 9) (some "0001") (some "old") []]
        [⟨0, "p0", 1⟩] =
      loadTree [TreeNode.mk "1" "T" 0 none none (some "0001") none []] [⟨0, "p0", 1⟩] :=
  ⟨by simp [skeletonOnly],
   save_strips_text_load_rederives.2 _ _ _ (by simp [skeletonOnly])⟩

/-! ### Claims C5 and C7 -/

/-- Claim C5: `extractJson` raises the extraction error if and only if
every strategy is exhausted — the direct parse, the fenced-block strategy
(with trailing-comma repair), and the object-shaped then array-shaped
balanced-bracket strategies (each with trailing-comma repair) — and the
error carries the truncated 200-character preview of the offending text;
in particular `extractJson "no structure here"` errors with the preview. -/
theorem extractJson_error_iff_strategies_exhausted :
    (∀ text : String,
      extractJson text =
          .error ("Could not extract JSON from text: " ++ text.take 200 ++ "...") ↔
        jsonParse text = none ∧ fencedAttempt text = none ∧
          bracketAttempt '\x7b' '\x7d' text.toList = none ∧
          bracketAttempt '[' ']' text.toList = none) ∧
    extractJson "no structure here" =
      .error "Could not extract JSON from text: no structure here..." := by
  constructor
  · intro text
    cases h1 : jsonParse text <;>
      cases h2 : fencedAttempt text <;>
        cases h3 : bracketAttempt '\x7b' '\x7d' text.toList <;>
          cases h4 : bracketAttempt '[' ']' text.toList <;>
            simp only [String.toList] at h3 h4 <;>
              simp [extractJson, h1, h2, h3, h4]
  · rfl

/-- Claim C7: `extractJson` on a fenced block with a trailing comma
returns the object with members a=1 and b=2: the direct parse of the
trimmed block interior fails, then stripping the comma before the
closing brace and re-parsing succeeds. -/
theorem extract_fenced_block_trailing_comma_repair :
    extractJson "Here:\n```json\n\x7b\"a\":1,\"b\":2,\x7d\n```" =
      .ok (.obj [("a", .num "1"), ("b", .num "2")]) ∧
    jsonParse "\x7b\"a\":1,\"b\":2,\x7d" = none ∧
    fencedBlock "Here:\n```json\n\x7b\"a\":1,\"b\":2,\x7d\n```".toList =
      some "\x7b\"a\":1,\"b\":2,\x7d\n".toList ∧
    String.mk (cleanTrailingCommas (jsTrim "\x7b\"a\":1,\"b\":2,\x7d\n").toList) =
      "\x7b\"a\":1,\"b\":2\x7d" :=
  ⟨rfl, rfl, rfl, rfl⟩

/-! ### Claim C6 -/

/-- A string is rebuilt from its character list. -/
theorem mk_data (s : String) : String.mk s.data = s := rfl

/-- Splitting consumes a dot-free prefix into the accumulator. -/
theorem splitDotGo_append : ∀ (xs : List Char), '.' ∉ xs → ∀ (rest acc : List Char),
    splitDotGo (xs ++ rest) acc = splitDotGo rest (xs.reverse ++ acc)
  | [], _, rest, acc => by simp
  | x :: xtl, hx, rest, acc => by
    have hx1 : ¬ x = '.' := fun h => hx (by simp [h])
    have hx2 : '.' ∉ xtl := fun h => hx (List.mem_cons_of_mem _ h)
    simp only [List.cons_append, splitDotGo, if_neg hx1, List.append_eq]
    rw [splitDotGo_append xtl hx2 rest (x :: acc)]
    simp

/-- A dot-free string splits into the single segment it is. -/
theorem splitDot_no_dot (p : String) (hp : '.' ∉ p.data) : splitDot p = [p] := by
  have h := splitDotGo_append p.data hp [] []
  have h2 : splitDot p = splitDotGo (p.data ++ []) [] := by
    simp [splitDot, String.toList]
  rw [h2, h]
  simp [splitDotGo, mk_data]

/-- A two-segment path splits into parent and child segments. -/
theorem splitDot_parent_child (p c : String) (hp : '.' ∉ p.data) (hc : '.' ∉ c.data) :
    splitDot (p ++ "." ++ c) = [p, c] := by
  have hdot : ".".data = ['.'] := rfl
  have hdata : (p ++ "." ++ c).toList = p.data ++ ('.' :: c.data) := by
    simp [String.toList, String.data_append, hdot]
  have h2 : splitDot (p ++ "." ++ c) = splitDotGo (p.data ++ ('.' :: c.data)) [] := by
    rw [splitDot, hdata]
  have h3 := splitDotGo_append c.data hc [] []
  simp only [List.append_nil] at h3
  rw [h2, splitDotGo_append p.data hp ('.' :: c.data) []]
  simp [splitDotGo, h3, mk_data]

/-- Joining a one-element list is that element. -/
theorem intercalate_single (s p : String) : String.intercalate s [p] = p := rfl

/-- Claim C6: when two descriptors share an exact identical (dot-free)
path string `p`, the lookup table retains the most recently inserted
node, so a later descriptor with parent path `p` is attached as a child
of the second duplicate and never of the first — both when it directly
follows the duplicates and when another root with a distinct path `q`
intervenes. -/
theorem listToTree_duplicate_paths_last_wins :
    ∀ (p c q tA tB tC tD : String) (aA aB aC aD : Int),
      ('.' ∉ p.data) → ('.' ∉ c.data) → ('.' ∉ q.data) → q ≠ p →
      listToTree [⟨p, tA, aA⟩, ⟨p, tB, aB⟩, ⟨p ++ "." ++ c, tC, aC⟩] =
        [TreeNode.mk p tA aA none none none none [],
         TreeNode.mk p tB aB none none none none
           [TreeNode.mk (p ++ "." ++ c) tC aC none none none none []]] ∧
      listToTree [⟨p, tA, aA⟩, ⟨p, tB, aB⟩, ⟨q, tD, aD⟩, ⟨p ++ "." ++ c, tC, aC⟩] =
        [TreeNode.mk p tA aA none none none none [],
         TreeNode.mk p tB aB none none none none
           [TreeNode.mk (p ++ "." ++ c) tC aC none none none none []],
         TreeNode.mk q tD aD none none none none []] := by
  intro p c q tA tB tC tD aA aB aC aD hp hc hq hqp
  have hpp : splitDot p = [p] := splitDot_no_dot p hp
  have hqq : splitDot q = [q] := splitDot_no_dot q hq
  have hpc : splitDot (p ++ "." ++ c) = [p, c] := splitDot_parent_child p c hp hc
  have hbq : (p == q) = false := beq_eq_false_iff_ne.mpr (fun h => hqp h.symm)
  constructor
  · simp [listToTree, listToTreeGo, hpp, hpc, intercalate_single, List.lookup,
      getNodeAt, attachAt, modifyKth, newNode, TreeNode.nodes]
  · simp [listToTree, listToTreeGo, hpp, hqq, hpc, intercalate_single, List.lookup,
      hbq, getNodeAt, attachAt, modifyKth, newNode, TreeNode.nodes]

/-- Concrete instance of the duplicate-path theorem at paths "1", child
segment "1" and intervening root "2". -/
theorem listToTree_duplicate_paths_last_wins_witness :
    listToTree [⟨"1", "A", 1⟩, ⟨"1", "B", 2⟩, ⟨"1" ++ "." ++ "1", "C", 3⟩] =
      [TreeNode.mk "1" "A" 1 none none none none [],
       TreeNode.mk "1" "B" 2 none none none none
         [TreeNode.mk ("1" ++ "." ++ "1") "C" 3 none none none none []]] ∧
    listToTree [⟨"1", "A", 1⟩, ⟨"1", "B", 2⟩, ⟨"2", "D", 4⟩, ⟨"1" ++ "." ++ "1", "C", 3⟩] =
      [TreeNode.mk "1" "A" 1 none none none none [],
       TreeNode.mk "1" "B" 2 none none none none
         [TreeNode.mk ("1" ++ "." ++ "1") "C" 3 none none none none []],
       TreeNode.mk "2" "D" 4 none none none none []] :=
  listToTree_duplicate_paths_last_wins "1" "1" "2" "A" "B" "C" "D" 1 2 3 4
    (by decide) (by decide) (by decide) (by decide)

/-! ### Claim C8 -/

/-- Claim C8: `stripTextFromTree` returns a forest agreeing with the
input on every field except `text`, which is absent (`none`) on every
node of the result; in this pure value model the input forest is
untouched by construction (the source's deep copy corresponds to value
semantics, so no sharing with the input exists to begin with). -/
theorem strip_removes_text_preserves_rest :
    ∀ tree, strippedForestb tree (stripTextFromTree tree) = true ∧
      allNodesb (fun n => n.text.isNone) (stripTextFromTree tree) = true := by
  intro tree
  refine ⟨?_, allNodesb_strip tree⟩
  induction tree using forest_ind with
  | hnil => simp [stripTextFromTree, strippedForestb]
  | hcons s t pi si ei id tx ks tl ihks ihtl =>
    simp [stripTextFromTree, strippedForestb] at ihks ihtl ⊢
    exact ⟨ihks, ihtl⟩

/-! ### Claim C9 -/

/-- Re-embedding with the same pages changes nothing: the text fields are
recomputed from the preserved ranges. -/
theorem embedGo_embedGo (pages : List Page) :
    ∀ tree, embedGo pages (embedGo pages tree) = embedGo pages tree := by
  intro tree
  induction tree using forest_ind with
  | hnil => simp [embedGo]
  | hcons s t pi si ei id tx ks tl ihks ihtl =>
    simp [embedGo] at ihtl ⊢
    exact ⟨ihks, ihtl⟩

/-- The boundary a sibling list imposes on its first element: the next
sibling's anchor minus one, or the enclosing scope end. -/
def sibE : List TreeNode → Int → Int
  | [], e => e
  | m :: _, _ => m.physical_index - 1

/-- The cons equation of `assignRanges`, stated via `sibE`. -/
theorem assignRanges_cons (s t : String) (pi : Int) (si ei : Option Int)
    (id tx : Option String) (ks tl : List TreeNode) (E : Int) :
    assignRanges (TreeNode.mk s t pi si ei id tx ks :: tl) E =
      TreeNode.mk s t pi (some pi) (some (if sibE tl E < pi then pi else sibE tl E)) id tx
          (assignRanges ks (if sibE tl E < pi then pi else sibE tl E)) ::
        assignRanges tl E := by
  cases tl <;> simp [assignRanges, sibE]

/-- The assignment/embedding passes preserve the first sibling's anchor,
hence the boundary computation. -/
theorem sibE_embed_assign (pages : List Page) (tl : List TreeNode) (E' E : Int) :
    sibE (embedGo pages (assignRanges tl E')) E = sibE tl E := by
  cases tl with
  | nil => simp [assignRanges, embedGo]
  | cons m tl2 =>
    cases m with
    | mk ms mt mpi msi mei mid mtx mks =>
      rw [assignRanges_cons]
      simp [embedGo, sibE, TreeNode.physical_index]

/-- Re-assigning ranges after an embed pass changes nothing: the ranges
are recomputed from the preserved anchors and children and coincide with
the ones already present. -/
theorem assignRanges_embedGo_assignRanges (pages : List Page) :
    ∀ (tree : List TreeNode) (E : Int),
      assignRanges (embedGo pages (assignRanges tree E)) E =
        embedGo pages (assignRanges tree E) := by
  intro tree
  induction tree using forest_ind with
  | hnil => intro E; simp [assignRanges, embedGo]
  | hcons s t pi si ei id tx ks tl ihks ihtl =>
    intro E
    rw [assignRanges_cons]
    simp only [embedGo]
    rw [assignRanges_cons, sibE_embed_assign, ihks, ihtl E]

/-- Claim C9: the range-assignment plus text-embedding pipeline is
idempotent — applying `embedTextInTree (assignPageRanges tree n) pages`
a second time with the same page count and pages returns the identical
tree (in particular identical `text` on every node). -/
theorem range_embed_pipeline_idempotent :
    ∀ (tree : List TreeNode) (pages : List Page) (n : Nat),
      embedTextInTree (assignPageRanges (embedTextInTree (assignPageRanges tree n) pages) n)
          pages =
        embedTextInTree (assignPageRanges tree n) pages := by
  intro tree pages n
  unfold embedTextInTree assignPageRanges
  rw [assignRanges_embedGo_assignRanges, embedGo_embedGo]

/-! ### Claim C4 -/

/-- The node's assigned range is well-formed: `start_index` equals the
anchor and `end_index ≥ start_index`. -/
def rangeWFb (n : TreeNode) : Bool :=
  match n.start_index, n.end_index with
  | some s, some e => s == n.physical_index && decide (s ≤ e)
  | _, _ => false

/-- Every direct child's range is contained in the node's range. -/
def childWithinb (n : TreeNode) : Bool :=
  n.nodes.all (fun c =>
    match n.start_index, n.end_index, c.start_index, c.end_index with
    | some ps, some pe, some cs, some ce => decide (ps ≤ cs) && decide (ce ≤ pe)
    | _, _, _, _ => false)

/-- Adjacent siblings are contiguous except under clamping: when the next
sibling's anchor exceeds the current one, the next sibling starts exactly
one page after the current one ends. -/
def contiguousb (c1 c2 : TreeNode) : Bool :=
  match c1.end_index, c2.start_index with
  | some e1, some s2 => decide (c2.physical_index ≤ c1.physical_index) || (s2 == e1 + 1)
  | _, _ => false

/-- Apply `q` to every adjacent sibling pair at every level. -/
def allAdjb (q : TreeNode → TreeNode → Bool) : List TreeNode → Bool
  | [] => true
  | [.mk _ _ _ _ _ _ _ ks] => allAdjb q ks
  | .mk s t pi si ei id tx ks :: m :: tl =>
    q (.mk s t pi si ei id tx ks) m && allAdjb q ks && allAdjb q (m :: tl)

/-- Anchors are consistent with the ranges `assignRanges` will compute:
following that recursion exactly, each node's children carry anchors
inside the node's `[physical_index, end]` span, at every level. -/
def anchorsOkb : List TreeNode → Int → Bool
  | [], _ => true
  | .mk _ _ pi _ _ _ _ ks :: rest, E =>
    ks.all (fun c =>
        decide (pi ≤ c.physical_index) &&
          decide (c.physical_index ≤ if sibE rest E < pi then pi else sibE rest E)) &&
      anchorsOkb ks (if sibE rest E < pi then pi else sibE rest E) && anchorsOkb rest E

/-- Every node assigned by `assignRanges` has `start = anchor` and
`end ≥ start` — unconditionally. -/
theorem assignRanges_rangeWF : ∀ (l : List TreeNode) (E : Int),
    allNodesb rangeWFb (assignRanges l E) = true := by
  intro l
  induction l using forest_ind with
  | hnil => intro E; simp [assignRanges, allNodesb]
  | hcons s t pi si ei id tx ks tl ihks ihtl =>
    intro E
    rw [assignRanges_cons]
    simp [allNodesb, rangeWFb, TreeNode.start_index, TreeNode.end_index,
      TreeNode.physical_index, ihks, ihtl E]
    split <;> omega

/-- Top-level ranges land inside the enclosing scope `[lo, E]` whenever
the top-level anchors do. -/
theorem assignRanges_top_within : ∀ (l : List TreeNode) (lo E : Int),
    (∀ c ∈ l, lo ≤ c.physical_index ∧ c.physical_index ≤ E) →
    ∀ nd ∈ assignRanges l E,
      nd.start_index = some nd.physical_index ∧
        ∃ e, nd.end_index = some e ∧ lo ≤ nd.physical_index ∧ e ≤ E := by
  intro l
  induction l with
  | nil => intro lo E h nd hnd; simp [assignRanges] at hnd
  | cons n tl ih =>
    cases n with
    | mk s t pi si ei id tx ks =>
      intro lo E h nd hnd
      have hpi := h _ (List.mem_cons_self _ _)
      simp only [TreeNode.physical_index] at hpi
      have hsib : sibE tl E ≤ E := by
        cases tl with
        | nil => simp [sibE]
        | cons m tl2 =>
          have hm := (h m (by simp)).2
          simp only [sibE]
          omega
      rw [assignRanges_cons] at hnd
      rcases List.mem_cons.mp hnd with rfl | hnd
      · refine ⟨rfl, _, rfl, ?_, ?_⟩
        · exact hpi.1
        · split <;> omega
      · exact ih lo E (fun c hc => h c (List.mem_cons_of_mem _ hc)) nd hnd

/-- When the anchors respect the scopes, every child's range is contained
in its parent's range. -/
theorem assignRanges_childWithin : ∀ (l : List TreeNode) (E : Int),
    anchorsOkb l E = true → allNodesb childWithinb (assignRanges l E) = true := by
  intro l
  induction l using forest_ind with
  | hnil => intro E h; simp [assignRanges, allNodesb]
  | hcons s t pi si ei id tx ks tl ihks ihtl =>
    intro E h
    simp only [anchorsOkb, Bool.and_eq_true] at h
    obtain ⟨⟨hanch, hks⟩, htl⟩ := h
    rw [List.all_eq_true] at hanch
    rw [assignRanges_cons]
    simp only [allNodesb, Bool.and_eq_true]
    refine ⟨⟨?_, ihks _ hks⟩, ihtl E htl⟩
    simp only [childWithinb, TreeNode.nodes, TreeNode.start_index, TreeNode.end_index,
      List.all_eq_true]
    intro c hc
    have hmem : ∀ c' ∈ ks, pi ≤ c'.physical_index ∧
        c'.physical_index ≤ (if sibE tl E < pi then pi else sibE tl E) := by
      intro c' hc'
      have h' := hanch c' hc'
      constructor
      · exact of_decide_eq_true (Bool.and_elim_left h')
      · exact of_decide_eq_true (Bool.and_elim_right h')
    obtain ⟨hsi, e, hei, hlo, hhi⟩ := assignRanges_top_within ks pi _ hmem c hc
    cases c with
    | mk cs ct cpi csi cei cid ctx cks =>
      simp only [TreeNode.start_index, TreeNode.end_index, TreeNode.physical_index]
        at hsi hei hlo
      subst hsi
      subst hei
      simp [hlo, hhi]

/-- Adjacent siblings assigned by `assignRanges` are contiguous except
under clamping — unconditionally, at every level. -/
theorem assignRanges_contiguous : ∀ (l : List TreeNode) (E : Int),
    allAdjb contiguousb (assignRanges l E) = true := by
  intro l
  induction l using forest_ind with
  | hnil => intro E; simp [assignRanges, allAdjb]
  | hcons s t pi si ei id tx ks tl ihks ihtl =>
    intro E
    cases tl with
    | nil =>
      rw [assignRanges_cons]
      simp [assignRanges, allAdjb, ihks]
    | cons m tl2 =>
      cases m with
      | mk ms mt mpi msi mei mid mtx mks =>
        have h := ihtl E
        rw [assignRanges_cons] at h
        rw [assignRanges_cons, assignRanges_cons]
        simp only [allAdjb, Bool.and_eq_true]
        refine ⟨⟨?_, ?_⟩, h⟩
        · simp only [contiguousb, sibE, TreeNode.end_index, TreeNode.start_index,
            TreeNode.physical_index]
          by_cases hc : mpi ≤ pi
          · simp [hc]
          · have h1 : ¬ (mpi - 1 < pi) := by omega
            have h2 : mpi - 1 + 1 = mpi := by omega
            simp [hc, h1, h2]
        · exact ihks _

/-- Claim C4 counterexample: a flat list whose paths form a valid prefix
hierarchy ("1", then its child "1.1") but whose child anchor (0) precedes
the parent's (5): the child is assigned range [0, 9], which is not
contained in the parent's [5, 9]. -/
theorem child_range_escapes_parent :
    assignPageRanges (listToTree [⟨"1", "A", 5⟩, ⟨"1.1", "B", 0⟩]) 10 =
      [TreeNode.mk "1" "A" 5 (some 5) (some 9) none none
        [TreeNode.mk "1.1" "B" 0 (some 0) (some 9) none none []]] ∧
    allNodesb childWithinb
      (assignPageRanges (listToTree [⟨"1", "A", 5⟩, ⟨"1.1", "B", 0⟩]) 10) = false := by
  have h1 : listToTree [⟨"1", "A", 5⟩, ⟨"1.1", "B", 0⟩] =
      [TreeNode.mk "1" "A" 5 none none none none
        [TreeNode.mk "1.1" "B" 0 none none none none []]] := rfl
  have h2 : assignPageRanges (listToTree [⟨"1", "A", 5⟩, ⟨"1.1", "B", 0⟩]) 10 =
      [TreeNode.mk "1" "A" 5 (some 5) (some 9) none none
        [TreeNode.mk "1.1" "B" 0 (some 0) (some 9) none none []]] := by
    rw [assignPageRanges, h1]
    norm_num
    rw [assignRanges_cons]
    simp [assignRanges, sibE]
  refine ⟨h2, ?_⟩
  rw [h2]
  simp [allNodesb, childWithinb, TreeNode.nodes, TreeNode.start_index, TreeNode.end_index]

/-- Claim C4 amended: for every forest built from a flat list, after
range assignment every node satisfies `end ≥ start` (with `start` the
node's anchor), and sibling ranges are contiguous (`next.start =
prev.end + 1`) except where clamping at shared or out-of-order anchors
applies; child ranges are contained within their parent's range provided
the anchors respect the computed scopes (`anchorsOkb`) — the
counterexample shows containment fails without that proviso. -/
theorem assignRanges_invariants :
    ∀ (flat : List SectionItem) (totalPages : Nat),
      allNodesb rangeWFb (assignPageRanges (listToTree flat) totalPages) = true ∧
      (anchorsOkb (listToTree flat) ((totalPages : Int) - 1) = true →
        allNodesb childWithinb (assignPageRanges (listToTree flat) totalPages) = true) ∧
      allAdjb contiguousb (assignPageRanges (listToTree flat) totalPages) = true :=
  fun flat totalPages =>
    ⟨assignRanges_rangeWF (listToTree flat) ((totalPages : Int) - 1),
     fun h => assignRanges_childWithin (listToTree flat) ((totalPages : Int) - 1) h,
     assignRanges_contiguous (listToTree flat) ((totalPages : Int) - 1)⟩

/-- Witness for the amended C4: the specification's own scenario — flat
list ("1", 0), ("1.1", 0), ("1.2", 5), ("2", 10) over 15 pages — has
anchors respecting the scopes, so containment holds. -/
theorem assignRanges_invariants_witness :
    anchorsOkb (listToTree [⟨"1", "Ch1", 0⟩, ⟨"1.1", "S1", 0⟩, ⟨"1.2", "S2", 5⟩, ⟨"2", "Ch2", 10⟩])
        (((15 : Nat) : Int) - 1) = true ∧
    allNodesb childWithinb
      (assignPageRanges
        (listToTree [⟨"1", "Ch1", 0⟩, ⟨"1.1", "S1", 0⟩, ⟨"1.2", "S2", 5⟩, ⟨"2", "Ch2", 10⟩])
        15) = true := by
  have hanch : anchorsOkb
      (listToTree [⟨"1", "Ch1", 0⟩, ⟨"1.1", "S1", 0⟩, ⟨"1.2", "S2", 5⟩, ⟨"2", "Ch2", 10⟩])
      (((15 : Nat) : Int) - 1) = true := by
    have h1 : listToTree [⟨"1", "Ch1", 0⟩, ⟨"1.1", "S1", 0⟩, ⟨"1.2", "S2", 5⟩, ⟨"2", "Ch2", 10⟩] =
        [TreeNode.mk "1" "Ch1" 0 none none none none
          [TreeNode.mk "1.1" "S1" 0 none none none none [],
           TreeNode.mk "1.2" "S2" 5 none none none none []],
         TreeNode.mk "2" "Ch2" 10 none none none none []] := rfl
    rw [h1]
    simp [anchorsOkb, sibE, TreeNode.physical_index]
  exact ⟨hanch,
    (assignRanges_invariants
      [⟨"1", "Ch1", 0⟩, ⟨"1.1", "S1", 0⟩, ⟨"1.2", "S2", 5⟩, ⟨"2", "Ch2", 10⟩] 15).2.1 hanch⟩

/-! ### Claims C2 and C3 -/

/-- Total token count of the pages with indices in `[a, b)`. -/
def rangeSum (toks : List Nat) (a b : Nat) : Nat := ((toks.drop a).take (b - a)).sum

theorem rangeSum_self (toks : List Nat) (a : Nat) : rangeSum toks a a = 0 := by
  simp [rangeSum]

theorem rangeSum_succ (toks : List Nat) {a b : Nat} (h : a ≤ b) :
    rangeSum toks a (b + 1) = rangeSum toks a b + toks.getD b 0 := by
  unfold rangeSum
  have h1 : b + 1 - a = (b - a) + 1 := by omega
  rw [h1, List.take_succ, List.sum_append]
  congr 1
  rw [List.getElem?_drop]
  have h2 : a + (b - a) = b := by omega
  rw [h2, List.getD_eq_getElem?_getD]
  cases toks[b]? <;> simp

theorem rangeSum_mono (toks : List Nat) (a : Nat) {b b' : Nat} (h : b ≤ b') :
    rangeSum toks a b ≤ rangeSum toks a b' := by
  induction b', h using Nat.le_induction with
  | base => exact Nat.le_refl _
  | succ m hm ih =>
    rcases Nat.lt_or_ge m a with hma | hma
    · have h1 : m + 1 - a = 0 := by omega
      have h2 : rangeSum toks a (m + 1) = 0 := by simp [rangeSum, h1]
      have h3 : b - a = 0 := by omega
      have h4 : rangeSum toks a b = 0 := by simp [rangeSum, h3]
      omega
    · rw [rangeSum_succ toks hma]
      omega

theorem rangeSum_le_of_start_le (toks : List Nat) {a a' b : Nat} (h1 : a ≤ a') (h2 : a' ≤ b) :
    rangeSum toks a' b ≤ rangeSum toks a b := by
  unfold rangeSum
  have hsplit : b - a = (a' - a) + (b - a') := by omega
  rw [hsplit, List.take_add, List.sum_append, List.drop_drop]
  have h3 : a + (a' - a) = a' := by omega
  rw [h3]
  omega

theorem rangeSum_clamp (toks : List Nat) {a b : Nat} (h : toks.length ≤ b) :
    rangeSum toks a b = rangeSum toks a toks.length := by
  unfold rangeSum
  rw [List.take_of_length_le (by simp [List.length_drop]; omega),
    List.take_of_length_le (by simp [List.length_drop])]

/-- The inner loop never retreats before the window's first page. -/
theorem growEnd_ge (toks : List Nat) (mt gs r e : Nat) (h : gs ≤ e) :
    gs ≤ growEnd toks mt gs r e := by
  unfold growEnd
  split
  · rename_i h1
    split
    · rename_i h2; omega
    · exact growEnd_ge toks mt gs (r + toks.getD e 0) (e + 1) (by omega)
  · omega
termination_by toks.length - e
decreasing_by omega

/-- The inner loop's result is at least its cursor minus one. -/
theorem growEnd_ge_pred (toks : List Nat) (mt gs r e : Nat) :
    e - 1 ≤ growEnd toks mt gs r e := by
  unfold growEnd
  split
  · rename_i h1
    split
    · omega
    · have := growEnd_ge_pred toks mt gs (r + toks.getD e 0) (e + 1)
      omega
  · omega
termination_by toks.length - e
decreasing_by omega

/-- The inner loop's result never exceeds the page count. -/
theorem growEnd_le (toks : List Nat) (mt gs r e : Nat) (h : e ≤ toks.length) :
    growEnd toks mt gs r e ≤ toks.length := by
  unfold growEnd
  split
  · rename_i h1
    split
    · omega
    · exact growEnd_le toks mt gs (r + toks.getD e 0) (e + 1) (by omega)
  · omega
termination_by toks.length - e
decreasing_by omega

/-- Budget safety: a window the loop closes past its first page has total
tokens within the budget (an oversized single page is the only way a
window exceeds the budget, and it stays a one-page window). -/
theorem growEnd_budget (toks : List Nat) (mt gs : Nat) :
    ∀ r e, gs ≤ e → r = rangeSum toks gs e → (gs + 2 ≤ e → r ≤ mt) →
      gs + 1 ≤ min (growEnd toks mt gs r e) (toks.length - 1) →
      rangeSum toks gs (min (growEnd toks mt gs r e) (toks.length - 1) + 1) ≤ mt := by
  intro r e hge hsum hr hres
  rw [growEnd] at hres ⊢
  by_cases h1 : e < toks.length
  · rw [dif_pos h1] at hres ⊢
    by_cases h2 : r + toks.getD e 0 > mt ∧ gs < e
    · rw [if_pos h2] at hres ⊢
      -- the loop closed at e - 1
      have hlt : gs < e := h2.2
      have hmin : min (e - 1) (toks.length - 1) = e - 1 := by omega
      rw [hmin] at hres ⊢
      have h3 : e - 1 + 1 = e := by omega
      rw [h3]
      omega
    · rw [if_neg h2] at hres ⊢
      exact growEnd_budget toks mt gs (r + toks.getD e 0) (e + 1) (by omega)
        (by rw [hsum, rangeSum_succ toks hge])
        (by
          intro h3
          by_cases h5 : gs < e
          · have h6 : ¬ (r + toks.getD e 0 > mt) := fun hA => h2 ⟨hA, h5⟩
            omega
          · omega)
        hres
  · rw [dif_neg h1] at hres ⊢
    -- ran off the end: the window is clamped to the last page
    have hmin : min e (toks.length - 1) = toks.length - 1 := by omega
    rw [hmin] at hres ⊢
    have h2 : gs + 2 ≤ e := by omega
    have h3 : toks.length ≤ toks.length - 1 + 1 := by omega
    rw [rangeSum_clamp toks h3]
    have h4 : rangeSum toks gs e = rangeSum toks gs toks.length :=
      rangeSum_clamp toks (by omega)
    have h5 : r ≤ mt := hr h2
    omega
termination_by _ e => toks.length - e
decreasing_by omega

/-- Extension: if the pages up to `eb` fit the budget, the loop reaches
at least `eb`. -/
theorem growEnd_extends (toks : List Nat) (mt gs eb : Nat) :
    ∀ r e, gs ≤ e → e ≤ eb → eb ≤ toks.length - 1 →
      r = rangeSum toks gs e → rangeSum toks gs (eb + 1) ≤ mt →
      eb ≤ growEnd toks mt gs r e := by
  intro r e hge heb hebn hsum hbud
  by_cases hn : toks.length = 0
  · omega
  rw [growEnd]
  have h1 : e < toks.length := by omega
  rw [dif_pos h1]
  have hfit : ¬ (r + toks.getD e 0 > mt ∧ gs < e) := by
    intro hcon
    have h2 : r + toks.getD e 0 = rangeSum toks gs (e + 1) := by
      rw [hsum, rangeSum_succ toks hge]
    have h3 : rangeSum toks gs (e + 1) ≤ rangeSum toks gs (eb + 1) :=
      rangeSum_mono toks gs (by omega)
    omega
  rw [if_neg hfit]
  rcases Nat.lt_or_ge e eb with he | he
  · exact growEnd_extends toks mt gs eb (r + toks.getD e 0) (e + 1) (by omega) (by omega)
      hebn (by rw [hsum, rangeSum_succ toks hge]) hbud
  · have := growEnd_ge_pred toks mt gs (r + toks.getD e 0) (e + 1)
    omega
termination_by _ e => toks.length - e
decreasing_by omega

/-- `windowEnd` is the inner loop's result clamped to the last page. -/
theorem windowEnd_eq (toks : List Nat) (mt gs : Nat) :
    windowEnd toks mt gs = min (growEnd toks mt gs 0 gs) (toks.length - 1) := by
  unfold windowEnd
  split <;> omega

theorem windowEnd_ge (toks : List Nat) (mt : Nat) {gs : Nat} (h : gs < toks.length) :
    gs ≤ windowEnd toks mt gs := by
  rw [windowEnd_eq]
  have h1 := growEnd_ge toks mt gs 0 gs (Nat.le_refl _)
  omega

theorem windowEnd_le (toks : List Nat) (mt gs : Nat) :
    windowEnd toks mt gs ≤ toks.length - 1 := by
  rw [windowEnd_eq]; omega

/-- Budget safety at the window level. -/
theorem windowEnd_budget (toks : List Nat) (mt gs : Nat)
    (h : gs + 1 ≤ windowEnd toks mt gs) :
    rangeSum toks gs (windowEnd toks mt gs + 1) ≤ mt := by
  rw [windowEnd_eq] at h ⊢
  exact growEnd_budget toks mt gs 0 gs (Nat.le_refl _) (rangeSum_self toks gs).symm
    (by omega) h

/-- Extension at the window level. -/
theorem windowEnd_extends (toks : List Nat) (mt : Nat) {gs eb : Nat}
    (h1 : gs ≤ eb) (h2 : eb ≤ toks.length - 1) (h3 : rangeSum toks gs (eb + 1) ≤ mt) :
    eb ≤ windowEnd toks mt gs := by
  rw [windowEnd_eq]
  have h4 := growEnd_extends toks mt gs eb 0 gs (Nat.le_refl _) h1 h2
    (rangeSum_self toks gs).symm h3
  omega

/-- The loop emits at most one window per remaining page: the cursor
advances by at least one page per iteration. -/
theorem groupLoop_length (toks : List Nat) (mt ov : Nat) :
    ∀ gs, gs < toks.length → (groupLoop toks mt ov gs).length ≤ toks.length - gs := by
  intro gs h
  rw [groupLoop, dif_pos h]
  by_cases h2 : windowEnd toks mt gs ≥ toks.length - 1
  · rw [if_pos h2]
    simp
    omega
  · rw [if_neg h2]
    have h3 := windowEnd_le toks mt gs
    have h4 := windowEnd_ge toks mt h
    have hgs2 : max (windowEnd toks mt gs + 1 - ov) (gs + 1) < toks.length := by omega
    have hrec := groupLoop_length toks mt ov
      (max (windowEnd toks mt gs + 1 - ov) (gs + 1)) hgs2
    simp only [List.length_cons]
    omega
termination_by gs => toks.length - gs
decreasing_by omega

/-- Every page from the cursor on appears in at least one emitted window. -/
theorem groupLoop_cover (toks : List Nat) (mt ov : Nat) :
    ∀ gs, gs < toks.length → ∀ i, gs ≤ i → i < toks.length →
      ∃ w ∈ groupLoop toks mt ov gs, w.1 ≤ i ∧ i < w.2 := by
  intro gs h i hgi hin
  rw [groupLoop, dif_pos h]
  by_cases hc : i ≤ windowEnd toks mt gs
  · exact ⟨(gs, windowEnd toks mt gs + 1), List.mem_cons_self _ _, hgi, by omega⟩
  · have hwe := windowEnd_le toks mt gs
    have hge := windowEnd_ge toks mt h
    have h2 : ¬ (windowEnd toks mt gs ≥ toks.length - 1) := by omega
    rw [if_neg h2]
    have hgs2 : max (windowEnd toks mt gs + 1 - ov) (gs + 1) < toks.length := by omega
    obtain ⟨w, hw, hw2⟩ := groupLoop_cover toks mt ov
      (max (windowEnd toks mt gs + 1 - ov) (gs + 1)) hgs2 i (by omega) hin
    exact ⟨w, List.mem_cons_of_mem _ hw, hw2⟩
termination_by gs => toks.length - gs
decreasing_by omega

/-- Adjacent windows share at least `min overlap (size of the earlier
window - 1)` pages: the successor window starts at
`max(end + 1 - overlap, start + 1)` and, because the earlier window's
pages fit the budget whenever that window has two or more pages, grows at
least back to the earlier window's end. -/
theorem groupLoop_chain (toks : List Nat) (mt ov : Nat) :
    ∀ gs, gs < toks.length →
      List.Chain' (fun w1 w2 => min ov (w1.2 - w1.1 - 1) ≤ sharedCount w1 w2)
        (groupLoop toks mt ov gs) := by
  intro gs h
  rw [groupLoop, dif_pos h]
  by_cases h2 : windowEnd toks mt gs ≥ toks.length - 1
  · rw [if_pos h2]
    simp
  · rw [if_neg h2]
    have hge := windowEnd_ge toks mt h
    have hle := windowEnd_le toks mt gs
    have hgs2 : max (windowEnd toks mt gs + 1 - ov) (gs + 1) < toks.length := by omega
    have hchain := groupLoop_chain toks mt ov
      (max (windowEnd toks mt gs + 1 - ov) (gs + 1)) hgs2
    rw [groupLoop, dif_pos hgs2] at hchain ⊢
    rw [List.chain'_cons]
    refine ⟨?_, hchain⟩
    unfold sharedCount
    by_cases hsingle : windowEnd toks mt gs = gs
    · rw [hsingle]
      omega
    · have hbud : rangeSum toks gs (windowEnd toks mt gs + 1) ≤ mt :=
        windowEnd_budget toks mt gs (by omega)
      by_cases hov : ov = 0
      · subst hov
        omega
      · have hgs2le : max (windowEnd toks mt gs + 1 - ov) (gs + 1) ≤ windowEnd toks mt gs := by
          omega
        have hsub : rangeSum toks (max (windowEnd toks mt gs + 1 - ov) (gs + 1))
            (windowEnd toks mt gs + 1) ≤ rangeSum toks gs (windowEnd toks mt gs + 1) :=
          rangeSum_le_of_start_le toks (by omega) (by omega)
        have hext : windowEnd toks mt gs ≤
            windowEnd toks mt (max (windowEnd toks mt gs + 1 - ov) (gs + 1)) :=
          windowEnd_extends toks mt hgs2le (by omega) (by omega)
        omega
termination_by gs => toks.length - gs
decreasing_by omega

/-- Claim C2 counterexample: page sizes [10, 10, 10, 10], budget 25,
overlap 2 produce three two-page windows; adjacent windows share one page
while the claimed bound `min(overlap, min(sizes)) = 2` demands two. -/
theorem window_overlap_bound_counterexample :
    groupPages [10, 10, 10, 10] 25 2 = [(0, 2), (1, 3), (2, 4)] ∧
    sharedCount (0, 2) (1, 3) <
      min 2 (min ((0, 2).2 - (0, 2).1) ((1, 3).2 - (1, 3).1)) := by
  constructor
  · simp [groupPages, groupLoop, windowEnd, growEnd]
  · decide

/-- Claim C2 amended: whenever `groupPages` produces more than one
window, every pair of adjacent windows shares at least
`min(overlap, |w_i| - 1)` pages, where `|w_i|` is the page count of the
earlier window of the pair (for a one-page earlier window — an oversized
page — the guaranteed overlap is zero). -/
theorem window_adjacent_overlap :
    ∀ (toks : List Nat) (maxTokens overlap : Nat),
      List.Chain' (fun w1 w2 => min overlap (w1.2 - w1.1 - 1) ≤ sharedCount w1 w2)
        (groupPages toks maxTokens overlap) := by
  intro toks mt ov
  unfold groupPages
  split
  · simp
  · rename_i hsum
    have hn : 0 < toks.length := by
      rcases toks with _ | ⟨a, tl⟩
      · simp at hsum
      · simp
    exact groupLoop_chain toks mt ov 0 hn

/-- Claim C3 counterexample: on the empty page sequence the code returns
one (empty) window, so the number of windows exceeds the number of
pages. -/
theorem window_count_empty_counterexample :
    groupPages [] 1000 1 = [(0, 0)] ∧
    ¬ ((groupPages [] 1000 1).length ≤ ([] : List Nat).length) := by
  constructor
  · simp [groupPages]
  · simp [groupPages]

/-- Claim C3 amended: `groupPages` is a total function (the Lean
definition carries the termination proof: the cursor advances every
iteration); for every non-empty page sequence the number of windows is
at most the number of pages (the empty sequence yields one empty
window); every page appears in at least one window; and a single page
whose size exceeds the budget is absorbed as its own one-page window:
`groupPages [50000] 1000 1 = [(0, 1)]`. -/
theorem window_terminates_covers :
    (∀ (toks : List Nat) (maxTokens overlap : Nat), toks ≠ [] →
      (groupPages toks maxTokens overlap).length ≤ toks.length) ∧
    (∀ (toks : List Nat) (maxTokens overlap i : Nat), i < toks.length →
      ∃ w ∈ groupPages toks maxTokens overlap, w.1 ≤ i ∧ i < w.2) ∧
    groupPages [50000] 1000 1 = [(0, 1)] := by
  refine ⟨?_, ?_, ?_⟩
  · intro toks mt ov hne
    unfold groupPages
    split
    · rcases toks with _ | ⟨a, tl⟩
      · exact absurd rfl hne
      · simp
    · rename_i hsum
      have hn : 0 < toks.length := by
        rcases toks with _ | ⟨a, tl⟩
        · simp at hsum
        · simp
      have h := groupLoop_length toks mt ov 0 hn
      omega
  · intro toks mt ov i hi
    unfold groupPages
    split
    · exact ⟨(0, toks.length), List.mem_cons_self _ _, Nat.zero_le _, hi⟩
    · exact groupLoop_cover toks mt ov 0 (by omega) i (Nat.zero_le _) hi
  · simp [groupPages, groupLoop, windowEnd, growEnd]

/-- Witness for the amended C3 at a concrete input. -/
theorem window_terminates_covers_witness :
    (groupPages [5, 5] 100 1).length ≤ ([5, 5] : List Nat).length ∧
    (∃ w ∈ groupPages [5, 5] 100 1, w.1 ≤ 0 ∧ 0 < w.2) :=
  ⟨window_terminates_covers.1 [5, 5] 100 1 (by simp),
   window_terminates_covers.2.1 [5, 5] 100 1 0 (by simp)⟩

/-! ### Claim C10

The id renderer is `String(counter).padStart(4, "0")`, i.e.
`padStart (Nat.repr counter) 4 '0'`.  Its injectivity (hence uniqueness
of all assigned ids) rests on facts about `Nat.toDigits` proved here:
decimal digit strings are non-empty, have no leading zero (except "0"),
and determine their number. -/

theorem toDigitsCore_acc (b : Nat) :
    ∀ (f n : Nat) (acc : List Char),
      Nat.toDigitsCore b f n acc = Nat.toDigitsCore b f n [] ++ acc := by
  intro f
  induction f with
  | zero => intro n acc; simp [Nat.toDigitsCore]
  | succ f ih =>
    intro n acc
    simp only [Nat.toDigitsCore]
    by_cases h : n / b = 0
    · simp [h]
    · rw [if_neg h, if_neg h, ih (n / b) (Nat.digitChar (n % b) :: acc),
        ih (n / b) [Nat.digitChar (n % b)]]
      simp

theorem toDigitsCore_fuel (b : Nat) (hb : 2 ≤ b) :
    ∀ (n f g : Nat), n < f → n < g →
      Nat.toDigitsCore b f n [] = Nat.toDigitsCore b g n [] := by
  intro n
  induction n using Nat.strong_induction_on with
  | _ n ih =>
    intro f g hf hg
    cases f with
    | zero => omega
    | succ f =>
      cases g with
      | zero => omega
      | succ g =>
        simp only [Nat.toDigitsCore]
        by_cases h : n / b = 0
        · simp [h]
        · rw [if_neg h, if_neg h, toDigitsCore_acc, toDigitsCore_acc b g]
          have hpos : 0 < n := by
            rcases Nat.eq_zero_or_pos n with rfl | hp
            · simp at h
            · exact hp
          have hdiv : n / b < n := Nat.div_lt_self hpos (by omega)
          rw [ih (n / b) hdiv f g (by omega) (by omega)]

theorem toDigits_base10 (n : Nat) (h : n < 10) :
    Nat.toDigits 10 n = [Nat.digitChar n] := by
  simp [Nat.toDigits, Nat.toDigitsCore, Nat.div_eq_of_lt h, Nat.mod_eq_of_lt h]

theorem toDigits_step (n : Nat) (h : 10 ≤ n) :
    Nat.toDigits 10 n = Nat.toDigits 10 (n / 10) ++ [Nat.digitChar (n % 10)] := by
  have h0 : ¬ (n / 10 = 0) := by
    have := Nat.div_pos h (by omega)
    omega
  unfold Nat.toDigits
  simp only [Nat.toDigitsCore]
  rw [if_neg h0, toDigitsCore_acc]
  congr 1
  exact toDigitsCore_fuel 10 (by omega) (n / 10) n (n / 10 + 1)
    (Nat.div_lt_self (by omega) (by omega)) (Nat.lt_succ_self _)

/-- Numeric value of a decimal digit character. -/
def charVal (c : Char) : Nat := c.toNat - '0'.toNat

/-- Value of a big-endian decimal digit string. -/
def digitsVal (l : List Char) : Nat := l.foldl (fun a c => 10 * a + charVal c) 0

theorem charVal_digitChar (d : Nat) (h : d < 10) : charVal (Nat.digitChar d) = d := by
  interval_cases d <;> rfl

theorem digitsVal_append_singleton (l : List Char) (c : Char) :
    digitsVal (l ++ [c]) = 10 * digitsVal l + charVal c := by
  simp [digitsVal, List.foldl_append]

theorem digitsVal_toDigits (n : Nat) : digitsVal (Nat.toDigits 10 n) = n := by
  induction n using Nat.strong_induction_on with
  | _ n ih =>
    by_cases h : n < 10
    · rw [toDigits_base10 n h]
      simp [digitsVal, charVal_digitChar n h]
    · rw [toDigits_step n (by omega), digitsVal_append_singleton,
        ih (n / 10) (Nat.div_lt_self (by omega) (by omega)),
        charVal_digitChar (n % 10) (Nat.mod_lt n (by omega))]
      omega

theorem toDigits_inj {n m : Nat} (h : Nat.toDigits 10 n = Nat.toDigits 10 m) : n = m := by
  have h1 := digitsVal_toDigits n
  rw [h, digitsVal_toDigits] at h1
  omega

theorem toDigits_ne_nil (n : Nat) : Nat.toDigits 10 n ≠ [] := by
  by_cases h : n < 10
  · rw [toDigits_base10 n h]; simp
  · rw [toDigits_step n (by omega)]; simp

theorem toDigits_head (n : Nat) (hn : n ≠ 0) :
    (Nat.toDigits 10 n).head? ≠ some '0' := by
  induction n using Nat.strong_induction_on with
  | _ n ih =>
    by_cases h : n < 10
    · rw [toDigits_base10 n h]
      have h1 : 0 < n := Nat.pos_of_ne_zero hn
      interval_cases n <;> decide
    · rw [toDigits_step n (by omega)]
      rcases hh : Nat.toDigits 10 (n / 10) with _ | ⟨c, tl⟩
      · exact absurd hh (toDigits_ne_nil _)
      · have h2 := ih (n / 10) (Nat.div_lt_self (by omega) (by omega))
          (by
            have := Nat.div_pos (by omega : 10 ≤ n) (by omega)
            omega)
        rw [hh] at h2
        simpa using h2

/-- A good decimal rendering: non-empty and no leading zero except for
the single digit "0" itself. -/
def goodDigits (xs : List Char) : Prop :=
  xs ≠ [] ∧ (xs.head? ≠ some '0' ∨ xs = ['0'])

theorem goodDigits_toDigits (n : Nat) : goodDigits (Nat.toDigits 10 n) := by
  refine ⟨toDigits_ne_nil n, ?_⟩
  by_cases h : n = 0
  · subst h
    right
    rfl
  · exact Or.inl (toDigits_head n h)

/-- Zero-padding to width four cannot identify two different good digit
strings of different lengths. -/
theorem pad_ne_of_length_lt {xs ys : List Char} (hgx : goodDigits xs) (hgy : goodDigits ys)
    (hlen : xs.length < ys.length) :
    List.replicate (4 - xs.length) '0' ++ xs ≠ List.replicate (4 - ys.length) '0' ++ ys := by
  intro h
  have hlens : (4 - xs.length) + xs.length = (4 - ys.length) + ys.length := by
    have := congrArg List.length h
    simpa using this
  have hy4 : ys.length ≤ 4 := by omega
  have hk : 4 - ys.length < 4 - xs.length := by omega
  have hx0 : (List.replicate (4 - xs.length) '0' ++ xs)[4 - ys.length]? = some '0' := by
    rw [List.getElem?_append_left (by simpa using hk)]
    simp [hk]
  obtain ⟨c, tl, hys⟩ := List.exists_cons_of_ne_nil hgy.1
  subst hys
  have hy0 : (List.replicate (4 - (c :: tl).length) '0' ++ c :: tl)[4 - (c :: tl).length]? =
      some c := by
    rw [List.getElem?_append_right (by simp)]
    simp
  rw [h, hy0] at hx0
  have hc : c = '0' := by
    have := Option.some.injEq c '0'
    simp at hx0
    exact hx0
  subst hc
  rcases hgy.2 with hh | hh
  · simp at hh
  · have htl : tl = [] := by simpa using hh
    subst htl
    have hx1 : xs = [] := by
      rcases xs with _ | ⟨x, xtl⟩
      · rfl
      · simp at hlen
    exact hgx.1 hx1

/-- Padding a good decimal rendering to width four is injective. -/
theorem pad_inj {xs ys : List Char} (hgx : goodDigits xs) (hgy : goodDigits ys)
    (h : List.replicate (4 - xs.length) '0' ++ xs =
      List.replicate (4 - ys.length) '0' ++ ys) : xs = ys := by
  rcases Nat.lt_trichotomy xs.length ys.length with hl | hl | hl
  · exact absurd h (pad_ne_of_length_lt hgx hgy hl)
  · have hrep : 4 - xs.length = 4 - ys.length := by omega
    rw [hrep] at h
    exact (List.append_inj h rfl).2
  · exact absurd h.symm (pad_ne_of_length_lt hgy hgx hl)

/-- Characters of a rendered id: the zero padding followed by the
decimal digits. -/
theorem renderId_data (c : Nat) :
    (renderId c).data =
      List.replicate (4 - (Nat.toDigits 10 c).length) '0' ++ Nat.toDigits 10 c := rfl

/-- The id renderer is injective: distinct counters yield distinct ids. -/
theorem renderId_inj : Function.Injective renderId := by
  intro a b h
  have hdata : (renderId a).data = (renderId b).data := by rw [h]
  rw [renderId_data, renderId_data] at hdata
  exact toDigits_inj (pad_inj (goodDigits_toDigits a) (goodDigits_toDigits b) hdata)

/-- Flattening counts every node. -/
theorem treeToFlatList_length : ∀ l : List TreeNode,
    (treeToFlatList l).length = countNodes l := by
  intro l
  induction l using forest_ind with
  | hnil => simp [treeToFlatList, countNodes]
  | hcons s t pi si ei id tx ks tl ihks ihtl =>
    simp [treeToFlatList, countNodes, ihks, ihtl]
    omega

/-- The id pass returns the counter advanced by the number of nodes, and
the flat list of assigned ids is exactly the rendered counter interval,
in DFS pre-order. -/
theorem assignIdsGo_spec : ∀ (l : List TreeNode) (c : Nat),
    (assignIdsGo l c).2 = c + countNodes l ∧
    (treeToFlatList (assignIdsGo l c).1).map FlatNode.node_id =
      (List.range' (c + 1) (countNodes l)).map (fun k => some (renderId k)) := by
  intro l
  induction l using forest_ind with
  | hnil => intro c; simp [assignIdsGo, treeToFlatList, countNodes]
  | hcons s t pi si ei id tx ks tl ihks ihtl =>
    intro c
    have h1 := ihks (c + 1)
    have h2 := ihtl (assignIdsGo ks (c + 1)).2
    rw [h1.1] at h2
    constructor
    · simp only [assignIdsGo, countNodes, h1.1, h2.1]
      omega
    · simp only [assignIdsGo, treeToFlatList, countNodes, List.map_cons, List.map_append,
        h1.1, h1.2, h2.2]
      have hidx : c + 1 + countNodes ks + 1 = c + 1 + 1 + countNodes ks := by omega
      rw [hidx]
      have hsplit : 1 + countNodes ks + countNodes tl =
          countNodes ks + countNodes tl + 1 := by omega
      rw [hsplit, List.range'_succ, List.map_cons]
      congr 1
      have happ := List.range'_append (c + 1 + 1) (countNodes ks) (countNodes tl) 1
      simp only [one_mul] at happ
      rw [Nat.add_comm (countNodes ks) (countNodes tl), ← happ, List.map_append]

/-- Setting a key absent from the record appends a new entry. -/
theorem recordSet_fresh (m : List (String × TreeNode)) (k : String) (v : TreeNode)
    (h : k ∉ m.map Prod.fst) : recordSet m k v = m ++ [(k, v)] := by
  unfold recordSet
  rw [if_neg]
  intro hc
  rw [List.any_eq_true] at hc
  obtain ⟨kv, hkv, heq⟩ := hc
  rw [beq_iff_eq] at heq
  exact h (List.mem_map.mpr ⟨kv, hkv, heq⟩)

/-- The record built by `createNodeMapping`'s walk: when the ids in the
forest are defined, pairwise distinct, and fresh relative to the
accumulator, the walk appends exactly one entry per node, in pre-order. -/
theorem mappingGo_keys : ∀ (l : List TreeNode) (m : List (String × TreeNode)),
    ((treeToFlatList l).map FlatNode.node_id).Nodup →
    (∀ o ∈ (treeToFlatList l).map FlatNode.node_id, o.isSome = true) →
    (∀ k ∈ m.map Prod.fst, some k ∉ (treeToFlatList l).map FlatNode.node_id) →
    (mappingGo m l).map Prod.fst =
      m.map Prod.fst ++ ((treeToFlatList l).map FlatNode.node_id).reduceOption := by
  intro l
  induction l using forest_ind with
  | hnil => intro m _ _ _; simp [mappingGo, treeToFlatList]
  | hcons s t pi si ei id tx ks tl ihks ihtl =>
    intro m hnd hsome hdis
    simp only [treeToFlatList, List.map_cons, List.map_append] at hnd hsome hdis
    obtain ⟨i, rfl⟩ : ∃ i, id = some i := by
      have h1 := hsome id (List.mem_cons_self _ _)
      exact Option.isSome_iff_exists.mp h1
    rw [List.nodup_cons] at hnd
    obtain ⟨hhead, hAB⟩ := hnd
    rw [List.nodup_append] at hAB
    obtain ⟨hA, hB, hABdis⟩ := hAB
    have hifresh : i ∉ m.map Prod.fst :=
      fun hk => hdis i hk (List.mem_cons_self _ _)
    have hm1 := recordSet_fresh m i (TreeNode.mk s t pi si ei (some i) tx ks) hifresh
    have hkeys1 : (recordSet m i (TreeNode.mk s t pi si ei (some i) tx ks)).map Prod.fst =
        m.map Prod.fst ++ [i] := by
      rw [hm1]
      simp
    have hks := ihks (recordSet m i (TreeNode.mk s t pi si ei (some i) tx ks)) hA
      (fun o ho => hsome o (List.mem_cons_of_mem _ (List.mem_append_left _ ho)))
      (by
        intro k hk
        rw [hkeys1] at hk
        rcases List.mem_append.mp hk with hk1 | hk2
        · intro hmem
          exact hdis k hk1 (List.mem_cons_of_mem _ (List.mem_append_left _ hmem))
        · have hki : k = i := by simpa using hk2
          subst hki
          intro hmem
          exact hhead (List.mem_append_left _ hmem))
    have htl := ihtl (mappingGo (recordSet m i (TreeNode.mk s t pi si ei (some i) tx ks)) ks)
      hB
      (fun o ho => hsome o (List.mem_cons_of_mem _ (List.mem_append_right _ ho)))
      (by
        intro k hk
        rw [hks, hkeys1] at hk
        intro hmem
        rcases List.mem_append.mp hk with hk1 | hk2
        · rcases List.mem_append.mp hk1 with hk3 | hk4
          · exact hdis k hk3 (List.mem_cons_of_mem _ (List.mem_append_right _ hmem))
          · have hki : k = i := by simpa using hk4
            subst hki
            exact hhead (List.mem_append_right _ hmem)
        · have hsk : some k ∈ (treeToFlatList ks).map FlatNode.node_id :=
            List.reduceOption_mem_iff.mp hk2
          exact hABdis hsk hmem)
    simp only [mappingGo]
    rw [htl, hks, hkeys1]
    simp [treeToFlatList, List.reduceOption_append, List.append_assoc]

/-- `(l.map some).reduceOption = l`. -/
theorem reduceOption_map_some (l : List String) : (l.map some).reduceOption = l := by
  induction l with
  | nil => simp
  | cons a tl ih => simp [ih]

/-- Claim C10: `assignNodeIds` assigns ids in DFS pre-order (parent
before children, left to right) from a counter starting at 1, each
rendered by `String(counter).padStart(4, "0")`; the assigned ids are
pairwise distinct, and `createNodeMapping` run afterwards has exactly
`countNodes` entries. -/
theorem assignIds_preorder_unique_mapping :
    ∀ tree : List TreeNode,
      (treeToFlatList (assignNodeIds tree)).map FlatNode.node_id =
        (List.range' 1 (countNodes tree)).map (fun k => some (renderId k)) ∧
      ((treeToFlatList (assignNodeIds tree)).map FlatNode.node_id).Nodup ∧
      (createNodeMapping (assignNodeIds tree)).length = countNodes tree := by
  intro tree
  have hids : (treeToFlatList (assignNodeIds tree)).map FlatNode.node_id =
      (List.range' 1 (countNodes tree)).map (fun k => some (renderId k)) := by
    have hspec := (assignIdsGo_spec tree 0).2
    simpa [assignNodeIds] using hspec
  have hsome_inj : Function.Injective (fun k => some (renderId k)) :=
    fun a b h => renderId_inj (Option.some.inj h)
  have hnodup : ((treeToFlatList (assignNodeIds tree)).map FlatNode.node_id).Nodup := by
    rw [hids]
    exact List.Nodup.map hsome_inj (List.nodup_range' 1 (countNodes tree))
  refine ⟨hids, hnodup, ?_⟩
  have hsome : ∀ o ∈ (treeToFlatList (assignNodeIds tree)).map FlatNode.node_id,
      o.isSome = true := by
    rw [hids]
    intro o ho
    obtain ⟨k, _, rfl⟩ := List.mem_map.mp ho
    rfl
  have hkeys := mappingGo_keys (assignNodeIds tree) [] hnodup hsome (by simp)
  have hlen : (createNodeMapping (assignNodeIds tree)).length =
      ((createNodeMapping (assignNodeIds tree)).map Prod.fst).length := by
    rw [List.length_map]
  rw [hlen]
  unfold createNodeMapping
  rw [hkeys, hids]
  have hmm : ((List.range' 1 (countNodes tree)).map (fun k => some (renderId k))) =
      ((List.range' 1 (countNodes tree)).map renderId).map some := by
    rw [List.map_map]
    rfl
  rw [hmm, reduceOption_map_some]
  simp

end TreeDex
